import Mathlib

/-!
Shallow embedding of the `VoiceOverlay/asr_server.py` transcription service:
the length-prefixed socket framing of `handle_client`, the model cache of
`load_model`/`get_model_path`, the hotword cache of `load_hotwords`, and the
five text-normalization stages (`apply_phonetic_corrections`,
`remove_filler_words`, `convert_chinese_numbers`, `polish_sentence`,
`clean_punctuation`).  Bytes are modelled as `Nat` (values `< 256`), socket
traffic as a list of chunks (each `recv` drains at most one chunk, so chunk
boundaries model partial reads and an exhausted list models a closed
connection), and text as `List Char` with `String` wrappers.
-/

namespace OleVoice

/-! ### Framing layer (`handle_client`, lines 533-585) -/

/-- Big-endian 4-byte encoding of a length, as produced by
`struct.pack('!I', n)`.  Faithful only for `n < 2^32` (Python raises
`struct.error` otherwise). -/
def toBE4 (n : ℕ) : List ℕ :=
  [n / 2 ^ 24 % 256, n / 2 ^ 16 % 256, n / 2 ^ 8 % 256, n % 256]

/-- Big-endian interpretation of a byte list, as in `struct.unpack('!I', b)`
applied to a 4-byte buffer. -/
def fromBE4 (l : List ℕ) : ℕ :=
  l.foldl (fun a b => a * 256 + b) 0

/-- The frame encoder used for responses (lines 572-574): a 4-byte big-endian
length prefix followed by the payload bytes. -/
def encodeFrame (p : List ℕ) : List ℕ :=
  toBE4 p.length ++ p

/-- Incoming socket data: a list of chunks.  `recv` never crosses a chunk
boundary (a partial read), and an empty list means the peer closed the
connection (`recv` returns `b''`). -/
def ByteStream : Type := List (List ℕ)

/-- Model of `conn.recv(k)`: return up to `k` bytes from the front chunk;
bytes of the chunk beyond `k` stay buffered.  On an exhausted stream the
result is empty, modelling a closed connection. -/
def recv (k : ℕ) : ByteStream → List ℕ × ByteStream
  | [] => ([], [])
  | c :: cs => (c.take k, if c.drop k = [] then cs else c.drop k :: cs)

/-- Fuelled body of the payload read loop of `handle_client` (lines 544-549):
`while len(audio_data) < data_length:` request `min(4096, remaining)` bytes;
an empty read (closed connection) breaks out, keeping the partial data.
Each non-breaking iteration consumes at least one byte of `need`, so any
`fuel ≥ need` runs the loop to completion. -/
def recvLoopAux : ℕ → ℕ → ByteStream → List ℕ × ByteStream
  | 0, _, st => ([], st)
  | fuel + 1, need, st =>
    if need = 0 then ([], st)
    else
      let r := recv (min 4096 need) st
      if r.1 = [] then ([], r.2)
      else
        let rest := recvLoopAux fuel (need - r.1.length) r.2
        (r.1 ++ rest.1, rest.2)

/-- The payload read loop of `handle_client`, with exactly enough fuel. -/
def recvLoop (need : ℕ) (st : ByteStream) : List ℕ × ByteStream :=
  recvLoopAux need need st

/-- Reply behaviour of one `handle_client` call, abstracting the ASR call:
`none` when `recv(4)` returns no bytes (line 538's early `return`, no reply);
`some .err` when `struct.unpack('!I', ...)` raises on a short length read,
which the broad `except` answers with an error reply (lines 576-583);
`some (.ok payload)` when a length was decoded and `payload` (possibly
truncated by an early close) is transcribed and answered (lines 541-574). -/
inductive Reply
  | ok (payload : List ℕ)
  | err
  deriving DecidableEq

/-- One pass of `handle_client`'s framing over an incoming stream. -/
def handleClient (st : ByteStream) : Option Reply :=
  let r := recv 4 st
  if r.1 = [] then none
  else if r.1.length < 4 then some .err
  else some (.ok (recvLoop (fromBE4 r.1) r.2).1)

theorem toBE4_length (n : ℕ) : (toBE4 n).length = 4 := rfl

theorem fromBE4_toBE4 (n : ℕ) (h : n < 2 ^ 32) : fromBE4 (toBE4 n) = n := by
  simp only [toBE4, fromBE4, List.foldl]
  omega

theorem recvLoopAux_single (fuel : ℕ) :
    ∀ need l, need ≤ fuel → need ≤ l.length →
      (recvLoopAux fuel need [l]).1 = l.take need := by
  induction fuel with
  | zero =>
    intro need l hf _
    have : need = 0 := by omega
    simp [this, recvLoopAux]
  | succ fuel ih =>
    intro need l hf hle
    by_cases h0 : need = 0
    · simp [h0, recvLoopAux]
    · rw [recvLoopAux]
      simp only [h0, if_false]
      have hmin : 0 < min 4096 need := by omega
      have htk : (l.take (min 4096 need)).length = min 4096 need := by
        simp [List.length_take]; omega
      have hne : l.take (min 4096 need) ≠ [] := by
        intro hcon
        rw [hcon] at htk
        simp at htk
        omega
      simp only [recv]
      rw [if_neg hne]
      simp only [htk]
      by_cases hbig : need ≤ 4096
      · have hm : min 4096 need = 4096 ⊓ need := rfl
        have hm2 : min 4096 need = need := by omega
        rw [hm2]
        have hz : need - need = 0 := by omega
        rw [hz]
        by_cases hd : l.drop need = []
        · rw [if_pos hd]
          cases fuel with
          | zero => simp [recvLoopAux]
          | succ f => simp [recvLoopAux]
        · rw [if_neg hd]
          cases fuel with
          | zero => simp [recvLoopAux]
          | succ f => simp [recvLoopAux]
      · have hm : min 4096 need = 4096 := by omega
        rw [hm]
        have hdrop : l.drop 4096 ≠ [] := by
          intro hcon
          have := congrArg List.length hcon
          simp [List.length_drop] at this
          omega
        rw [if_neg hdrop]
        have hrec := ih (need - 4096) (l.drop 4096) (by omega)
          (by simp [List.length_drop]; omega)
        rw [hrec]
        rw [← List.take_add]
        have harith : 4096 + (need - 4096) = need := by omega
        rw [harith]

/-- C1 helper: the read loop gathers exactly the first `need` bytes when a
single chunk holds at least that many. -/
theorem recvLoop_single (l : List ℕ) (need : ℕ) (hle : need ≤ l.length) :
    (recvLoop need [l]).1 = l.take need :=
  recvLoopAux_single need need l (le_refl _) hle

theorem recvLoopAuxTrunc (cs : List (List ℕ)) :
    ∀ fuel need, need ≤ fuel → (∀ c ∈ cs, c ≠ [] ∧ c.length ≤ 4096) →
      (cs.map List.length).sum < need →
      (recvLoopAux fuel need cs).1 = cs.flatten := by
  induction cs with
  | nil =>
    intro fuel need hf _ hlt
    have h0 : need ≠ 0 := by simp at hlt; omega
    cases fuel with
    | zero => omega
    | succ f => simp [recvLoopAux, h0, recv]
  | cons c cs ih =>
    intro fuel need hf hchunks hlt
    have hc := hchunks c (by simp)
    have hcs : ∀ x ∈ cs, x ≠ [] ∧ x.length ≤ 4096 := fun x hx =>
      hchunks x (by simp [hx])
    have hclenpos : 0 < c.length := List.length_pos.mpr hc.1
    have hsum : (cs.map List.length).sum + c.length < need := by
      simp at hlt; omega
    have h0 : need ≠ 0 := by omega
    cases fuel with
    | zero => omega
    | succ f =>
      rw [recvLoopAux]
      simp only [h0, if_false]
      have hclen : c.length ≤ min 4096 need := by
        have := hc.2
        omega
      have htake : c.take (min 4096 need) = c := List.take_of_length_le hclen
      have hdrop : c.drop (min 4096 need) = [] := by
        apply List.drop_eq_nil_of_le
        omega
      simp only [recv, htake, hdrop, eq_self_iff_true, if_true]
      rw [if_neg hc.1]
      have hrec := ih f (need - c.length) (by omega) hcs (by omega)
      rw [hrec]
      simp

/-- C1 helper: `recvLoop` gathers exactly the concatenation of the remaining
chunks when the connection closes before `need` bytes arrive, provided every
chunk is nonempty and no larger than the 4096-byte request cap. -/
theorem recvLoopTrunc (cs : List (List ℕ)) (need : ℕ)
    (hchunks : ∀ c ∈ cs, c ≠ [] ∧ c.length ≤ 4096)
    (hlt : (cs.map List.length).sum < need) :
    (recvLoop need cs).1 = cs.flatten :=
  recvLoopAuxTrunc cs need need (le_refl _) hchunks hlt

/-- C1: framing round-trips.  Decoding (one `handle_client` read sequence) the
frame produced by encoding a payload of length below `2^32` — delivered here
as a single chunk — yields exactly the original payload, including the empty
payload. -/
theorem frame_roundtrip (p : List ℕ) (h : p.length < 2 ^ 32) :
    handleClient [encodeFrame p] = some (.ok p) := by
  have htake : (encodeFrame p).take 4 = toBE4 p.length := by
    simp [encodeFrame, toBE4]
  have hdrop : (encodeFrame p).drop 4 = p := by
    simp [encodeFrame, toBE4]
  rw [handleClient]
  simp only [recv, htake, hdrop]
  have hne : toBE4 p.length ≠ [] := by simp [toBE4]
  rw [if_neg hne]
  rw [toBE4_length]
  simp only [lt_irrefl, if_false]
  rw [fromBE4_toBE4 p.length h]
  by_cases hp : p = []
  · subst hp
    simp [recvLoop, recvLoopAux]
  · rw [if_neg hp]
    have := recvLoop_single p p.length (le_refl _)
    simp only [List.take_length] at this
    rw [this]

/-- C1 witness: the round-trip theorem applied at the concrete payload
`[7, 8, 9]`. -/
theorem frame_roundtrip_witness :
    handleClient [encodeFrame [7, 8, 9]] = some (.ok [7, 8, 9]) :=
  frame_roundtrip [7, 8, 9] (by norm_num)

/-- C2 counterexample: the code does not behave as the claim states.  With a
4-byte length announcing 5 payload bytes but only 2 arriving before the close,
`handle_client` replies normally with the truncated payload instead of
failing without a reply; and when the single `conn.recv(4)` length read
returns only 2 bytes, the code answers with an error reply instead of looping
to read the remaining length bytes. -/
theorem handleClient_truncation_behavior :
    handleClient [[0, 0, 0, 5], [1, 2]] = some (.ok [1, 2]) ∧
      handleClient [[0, 0, 0, 5], [1, 2]] ≠ none ∧
      handleClient [[0, 0], [0, 4, 9, 9, 9, 9]] = some .err := by
  refine ⟨?_, ?_, ?_⟩ <;> decide

/-- C2 (amended): `handle_client`'s framing reads the length with a single
`recv` of at most 4 bytes — returning without reply only if the connection is
already closed, and answering with an error reply if fewer than 4 bytes
arrive — then loops over partial reads for the payload; if the connection
closes before the full payload arrives, the partial payload is kept and
answered with a normal reply. -/
theorem handleClient_framing (c : List ℕ) (cs : List (List ℕ)) (n : ℕ)
    (hc : c ≠ []) (hshort : c.length < 4) (hn : n < 2 ^ 32)
    (hcs : ∀ x ∈ cs, x ≠ [] ∧ x.length ≤ 4096)
    (htrunc : (cs.map List.length).sum < n) :
    handleClient [] = none ∧
      handleClient (c :: cs) = some .err ∧
      handleClient (toBE4 n :: cs) = some (.ok cs.flatten) := by
  refine ⟨rfl, ?_, ?_⟩
  · rw [handleClient]
    have htake : c.take 4 = c := List.take_of_length_le (by omega)
    simp only [recv, htake]
    rw [if_neg hc, if_pos hshort]
  · rw [handleClient]
    have hlen4 : (toBE4 n).length = 4 := rfl
    have htake : (toBE4 n).take 4 = toBE4 n := List.take_of_length_le (by omega)
    have hdrop : (toBE4 n).drop 4 = [] := List.drop_eq_nil_of_le (by omega)
    simp only [recv, htake, hdrop, if_pos]
    have hne : toBE4 n ≠ [] := by simp [toBE4]
    rw [if_neg hne, hlen4]
    simp only [lt_irrefl, if_false]
    rw [fromBE4_toBE4 n hn]
    rw [recvLoopTrunc cs n hcs htrunc]

/-- C2 witness: the amended framing theorem applied at a closed stream, a
2-byte length read, and a 5-byte frame truncated to 2 delivered bytes. -/
theorem handleClient_framing_witness :
    handleClient [] = none ∧
      handleClient [[0, 0], [9]] = some .err ∧
      handleClient [toBE4 5, [1, 2]] = some (.ok [1, 2]) := by
  have h := handleClient_framing [0, 0] [[1, 2]] 5
    (by decide) (by decide) (by norm_num) (by decide) (by decide)
  refine ⟨h.1, ?_, ?_⟩
  · have h2 := handleClient_framing [0, 0] [[9]] 5
      (by decide) (by decide) (by norm_num) (by decide) (by decide)
    exact h2.2.1
  · simpa using h.2.2

/-! ### Model path resolution and model cache (`get_model_path` lines 98-114,
`load_model` lines 116-132, `transcribe_audio` lines 461-531) -/

/-- Python `model_name.replace('.', '___')` from line 105. -/
def replaceDots (s : String) : String :=
  ⟨s.data.foldr (fun c acc => if c = '.' then '_' :: '_' :: '_' :: acc else c :: acc) []⟩

/-- The two local-cache candidate directories of lines 103-106. -/
def cacheCandidates (home name : String) : List String :=
  [home ++ "/.cache/modelscope/hub/models/" ++ name,
   home ++ "/.cache/modelscope/hub/models/" ++ replaceDots name]

/-- Line 100, `CONFIG['models'].get(model_key, CONFIG['models']['0.6B'])`:
Python evaluates the default argument eagerly, so a missing `"0.6B"` entry is
a `KeyError` (`none`) even when `key` itself is present. -/
def modelsGet (models : List (String × String)) (key : String) : Option String :=
  match List.lookup "0.6B" models with
  | none => none
  | some d => some ((List.lookup key models).getD d)

/-- The `get_model_path` resolution: map the key to a model name, prefer the
first existing local cache directory (`ex` abstracts `Path.exists`), and fall
back to the remote identifier.  `none` models the `KeyError` crash of a
configuration without a `"0.6B"` entry. -/
def getModelPath (models : List (String × String)) (ex : String → Bool)
    (home key : String) : Option String :=
  (modelsGet models key).map fun name =>
    ((cacheCandidates home name).find? ex).getD name

/-- The process-wide cache globals `_current_model` / `_current_model_key`
(lines 28-30), plus a log of the paths passed to the external loader so that
"the loader is invoked exactly once" is a statement about `loads`. -/
structure MCState (H : Type) where
  model : Option H
  key : Option String
  loads : List String
  deriving DecidableEq

/-- Embedding of `load_model` (lines 116-132) with a total external loader.
`resolve` stands for the already-successful `get_model_path` resolution
(total because the default `"0.6B"` mapping is always present in `CONFIG`),
and `loader` for `mlx_audio.stt.utils.load_model`.  If the resident key
equals the requested key and a model is resident, the resident handle is
returned with no external call; otherwise the loader runs and the handle and
key are replaced. -/
def loadModel {H : Type} (resolve : String → String) (loader : String → H)
    (k : String) (s : MCState H) : H × MCState H :=
  match s.model, s.key with
  | some m, some k' =>
    if k' = k then (m, s)
    else
      let p := resolve k
      let h := loader p
      (h, ⟨some h, some k, s.loads ++ [p]⟩)
  | _, _ =>
    let p := resolve k
    let h := loader p
    (h, ⟨some h, some k, s.loads ++ [p]⟩)

/-- Embedding of `load_model` with a fallible external loader: an `.error`
models the loader raising.  The assignments `_current_model = ...` and
`_current_model_key = ...` on lines 128-129 happen only after the loader
returns, so on an exception both globals keep their previous values (the
loader invocation is still logged). -/
def loadModelE {H : Type} (resolve : String → String)
    (loaderE : String → Except String H) (k : String) (s : MCState H) :
    Except String H × MCState H :=
  match s.model, s.key with
  | some m, some k' =>
    if k' = k then (.ok m, s)
    else
      match loaderE (resolve k) with
      | .error e => (.error e, ⟨s.model, s.key, s.loads ++ [resolve k]⟩)
      | .ok h => (.ok h, ⟨some h, some k, s.loads ++ [resolve k]⟩)
  | _, _ =>
    match loaderE (resolve k) with
    | .error e => (.error e, ⟨s.model, s.key, s.loads ++ [resolve k]⟩)
    | .ok h => (.ok h, ⟨some h, some k, s.loads ++ [resolve k]⟩)

/-- The tagged result union of `transcribe_audio`:
`{"success": True, "text": ...}` or `{"success": False, "error": ...}`. -/
inductive TResult
  | ok (text : String)
  | fail (error : String)
  deriving DecidableEq

/-- Failure behaviour of `transcribe_audio` (lines 461-531): every exception
inside the `try`, in particular a loader failure inside `load_model`, is
caught and converted to a failed result (lines 527-531).  The engine call,
hotword context and text pipeline of the success path are abstracted into
`engine`, since C4 is about the failure path. -/
def transcribeAudio {H : Type} (resolve : String → String)
    (loaderE : String → Except String H) (engine : H → String) (k : String)
    (s : MCState H) : TResult × MCState H :=
  match loadModelE resolve loaderE k s with
  | (.error e, s') => (.fail e, s')
  | (.ok m, s') => (.ok (engine m), s')

/-- C3: from a fresh cache, two sequential `load_model(K)` calls return the
same handle and invoke the external loader exactly once in total, and a
subsequent `load_model(K2)` with `K2 ≠ K` invokes the loader exactly once
more, for `K2`'s path, replacing the resident handle and key. -/
theorem loadModel_cache_identity {H : Type} (resolve : String → String)
    (loader : String → H) (K K2 : String) (hne : K2 ≠ K) :
    let s0 : MCState H := ⟨none, none, []⟩
    let r1 := loadModel resolve loader K s0
    let r2 := loadModel resolve loader K r1.2
    let r3 := loadModel resolve loader K2 r2.2
    r2.1 = r1.1 ∧ r2.2 = r1.2 ∧ r2.2.loads = [resolve K] ∧
      r3.2.loads = [resolve K, resolve K2] ∧
      r3.1 = loader (resolve K2) ∧
      r3.2.model = some (loader (resolve K2)) ∧ r3.2.key = some K2 := by
  intro s0 r1 r2 r3
  have h1 : r1 = (loader (resolve K),
      ⟨some (loader (resolve K)), some K, [resolve K]⟩) := rfl
  have h2 : r2 = r1 := by
    show loadModel resolve loader K r1.2 = r1
    rw [h1]
    simp [loadModel]
  have h3 : r3 = (loader (resolve K2),
      ⟨some (loader (resolve K2)), some K2, [resolve K, resolve K2]⟩) := by
    show loadModel resolve loader K2 r2.2 = _
    rw [h2, h1]
    have hne' : K ≠ K2 := fun hcon => hne hcon.symm
    simp [loadModel, hne']
  rw [h2, h3, h1]
  simp

/-- C3 witness: the cache-identity theorem at concrete keys `"1.7B" ≠ "0.6B"`
with a concrete resolver and loader. -/
theorem loadModel_cache_identity_witness :
    let s0 : MCState String := ⟨none, none, []⟩
    let r1 := loadModel (fun k => "path:" ++ k) (fun p => "handle:" ++ p) "0.6B" s0
    let r2 := loadModel (fun k => "path:" ++ k) (fun p => "handle:" ++ p) "0.6B" r1.2
    let r3 := loadModel (fun k => "path:" ++ k) (fun p => "handle:" ++ p) "1.7B" r2.2
    r2.1 = r1.1 ∧ r2.2 = r1.2 ∧ r2.2.loads = ["path:0.6B"] ∧
      r3.2.loads = ["path:0.6B", "path:1.7B"] ∧
      r3.1 = "handle:path:1.7B" ∧
      r3.2.model = some "handle:path:1.7B" ∧ r3.2.key = some "1.7B" := by
  have h := loadModel_cache_identity (H := String) (fun k => "path:" ++ k)
    (fun p => "handle:" ++ p) "0.6B" "1.7B" (by decide)
  simpa using h

/-- C4: if the external loader raises while `load_model` is swapping to a
non-resident key, the resident model handle and key are left unchanged, and
`transcribe_audio` surfaces the failure as a failed result instead of
crashing. -/
theorem loadModel_failure_keeps_resident {H : Type} (resolve : String → String)
    (loaderE : String → Except String H) (engine : H → String) (K e : String)
    (s : MCState H) (hfail : loaderE (resolve K) = .error e)
    (hnr : s.key ≠ some K ∨ s.model = none) :
    (loadModelE resolve loaderE K s).2.model = s.model ∧
      (loadModelE resolve loaderE K s).2.key = s.key ∧
      (loadModelE resolve loaderE K s).1 = .error e ∧
      transcribeAudio resolve loaderE engine K s =
        (.fail e, ⟨s.model, s.key, s.loads ++ [resolve K]⟩) := by
  obtain ⟨m, k, l⟩ := s
  have hload : loadModelE resolve loaderE K (⟨m, k, l⟩ : MCState H) =
      (.error e, ⟨m, k, l ++ [resolve K]⟩) := by
    match m, k with
    | some m', some k' =>
      rcases hnr with hk | hm
      · have : k' ≠ K := fun hc => hk (by rw [hc])
        simp [loadModelE, this, hfail]
      · exact absurd hm (by simp)
    | some m', none => simp [loadModelE, hfail]
    | none, some k' => simp [loadModelE, hfail]
    | none, none => simp [loadModelE, hfail]
  refine ⟨?_, ?_, ?_, ?_⟩
  · rw [hload]
  · rw [hload]
  · rw [hload]
  · rw [transcribeAudio, hload]

/-- C4 witness: the failure theorem at a concrete resident state for key
`"0.6B"` and a loader that fails on `"1.7B"`'s path. -/
theorem loadModel_failure_keeps_resident_witness :
    let loaderE : String → Except String String := fun p =>
      if p = "path:1.7B" then .error "download failed" else .ok ("handle:" ++ p)
    let s : MCState String := ⟨some "handle:path:0.6B", some "0.6B", ["path:0.6B"]⟩
    (loadModelE (fun k => "path:" ++ k) loaderE "1.7B" s).2.model =
        some "handle:path:0.6B" ∧
      (loadModelE (fun k => "path:" ++ k) loaderE "1.7B" s).2.key = some "0.6B" ∧
      (loadModelE (fun k => "path:" ++ k) loaderE "1.7B" s).1 =
        .error "download failed" ∧
      transcribeAudio (fun k => "path:" ++ k) loaderE id "1.7B" s =
        (.fail "download failed",
          ⟨some "handle:path:0.6B", some "0.6B", ["path:0.6B", "path:1.7B"]⟩) := by
  have h := loadModel_failure_keeps_resident (H := String)
    (fun k => "path:" ++ k)
    (fun p => if p = "path:1.7B" then .error "download failed"
              else .ok ("handle:" ++ p))
    id "1.7B" "download failed"
    ⟨some "handle:path:0.6B", some "0.6B", ["path:0.6B"]⟩
    rfl (Or.inl (by decide))
  simpa using h

/-- C10: a model key absent from the configured mapping resolves exactly as
the default `"0.6B"` key does — `get_model_path` uses the default model
identifier instead of failing. -/
theorem getModelPath_unknown_key_default (models : List (String × String))
    (ex : String → Bool) (home key d : String)
    (habsent : List.lookup key models = none)
    (hdefault : List.lookup "0.6B" models = some d) :
    getModelPath models ex home key =
        some (((cacheCandidates home d).find? ex).getD d) ∧
      getModelPath models ex home key = getModelPath models ex home "0.6B" := by
  have hk : modelsGet models key = some d := by
    rw [modelsGet, hdefault, habsent]
    rfl
  have hd : modelsGet models "0.6B" = some d := by
    rw [modelsGet, hdefault]
    rfl
  rw [getModelPath, getModelPath, hk, hd]
  exact ⟨rfl, rfl⟩

/-- C10 witness: the default-key theorem at the shipped `CONFIG['models']`
mapping and an unrecognized key `"3B"`, with no local cache present. -/
theorem getModelPath_unknown_key_default_witness :
    getModelPath
        [("0.6B", "mlx-community/Qwen3-ASR-0.6B-8bit"),
         ("1.7B", "mlx-community/Qwen3-ASR-1.7B-8bit")]
        (fun _ => false) "/Users/u" "3B" =
      some "mlx-community/Qwen3-ASR-0.6B-8bit" := by
  have h := getModelPath_unknown_key_default
    [("0.6B", "mlx-community/Qwen3-ASR-0.6B-8bit"),
     ("1.7B", "mlx-community/Qwen3-ASR-1.7B-8bit")]
    (fun _ => false) "/Users/u" "3B" "mlx-community/Qwen3-ASR-0.6B-8bit"
    (by decide) (by decide)
  rw [h.1]
  rfl

/-! ### Interleaved execution of `load_model` (C9)

`load_model` mutates the globals `_current_model` and `_current_model_key`
with no lock, while `start_server` (line 649) runs `warmup_model` on a
background thread concurrently with `handle_client` on the main thread; both
call `load_model`.  Under CPython, each global `STORE` of lines 128-129 is an
atomic step and the slow loader call between the residency check and the
stores is a suspension point, so two calls can interleave at statement
granularity.  The small-step model below gives one thread a program counter
over exactly those three steps: the residency check of line 121 (on a miss,
the loader runs and its result is held locally), the `_current_model` store
of line 128, and the `_current_model_key` store of line 129. -/

/-- The shared globals of the race model. -/
structure RaceGlobals where
  model : Option String
  key : Option String
  deriving DecidableEq

/-- Program counter of one `load_model` call. -/
inductive RacePC
  | check
  | writeModel
  | writeKey
  | done
  deriving DecidableEq

/-- One thread executing `load_model t.k`; `h` holds the loader's result
after the check step. -/
structure RaceThread where
  k : String
  pc : RacePC
  h : Option String
  deriving DecidableEq

/-- One atomic step of a thread: the residency check (computing the handle on
a miss), the `_current_model` store, or the `_current_model_key` store. -/
def raceStep (loader : String → String) (g : RaceGlobals) (t : RaceThread) :
    RaceGlobals × RaceThread :=
  match t.pc with
  | .check =>
    if g.model.isSome ∧ g.key = some t.k then (g, { t with pc := .done })
    else (g, { t with pc := .writeModel, h := some (loader t.k) })
  | .writeModel => ({ g with model := t.h }, { t with pc := .writeKey })
  | .writeKey => ({ g with key := some t.k }, { t with pc := .done })
  | .done => (g, t)

/-- A two-thread system: globals plus one thread per concurrent
`load_model` call (warmup thread and request handler). -/
structure RaceSys where
  g : RaceGlobals
  t0 : RaceThread
  t1 : RaceThread
  deriving DecidableEq

/-- Run a schedule: `false` steps thread 0, `true` steps thread 1. -/
def raceRun (loader : String → String) : List Bool → RaceSys → RaceSys
  | [], sys => sys
  | b :: rest, sys =>
    if b then
      let r := raceStep loader sys.g sys.t1
      raceRun loader rest ⟨r.1, sys.t0, r.2⟩
    else
      let r := raceStep loader sys.g sys.t0
      raceRun loader rest ⟨r.1, r.2, sys.t1⟩

/-- C9: the check-then-act sequence of `load_model` is NOT one atomic
critical section — there is no lock in the code — so two concurrent callers
(for example the background warmup thread started on line 649 and a client
request) can interleave and leave the resident key and handle pointing at
different models.  Concretely: thread 0 runs `load_model "A"` through its
`_current_model` store, thread 1 then runs `load_model "B"` to completion,
and thread 0 finally stores its key.  The globals end as
`_current_model_key = "A"` with `_current_model = handle("B")`, although
`handle("A") ≠ handle("B")`. -/
theorem loadModel_race_mismatch :
    let final : RaceSys :=
      raceRun (fun k => "handle:" ++ k) [false, false, true, true, true, false]
        ⟨⟨none, none⟩, ⟨"A", .check, none⟩, ⟨"B", .check, none⟩⟩
    final.g.key = some "A" ∧ final.g.model = some "handle:B" ∧
      ("handle:A" : String) ≠ "handle:B" ∧
      final.g.model ≠ some "handle:A" := by
  refine ⟨rfl, rfl, by decide, by decide⟩

/-! ### Hotword store (`load_hotwords`, lines 36-74) -/

/-- The hotword cache globals `_hotwords` / `_hotwords_mtime` (lines 33-34)
plus a counter of file-content reads (the `open(...)` on line 62), so that
"no file read" is a statement about `reads`. -/
structure HWState where
  cache : Option (List String)
  mtime : Int
  reads : ℕ
  deriving DecidableEq

/-- Line 63's comprehension: keep lines whose `strip()` is nonempty and that
do not start with `'#'` (the startswith test runs on the unstripped line),
then return the stripped lines. -/
def parseHotwordLines (raw : List String) : List String :=
  (raw.filter fun l => l.trim ≠ "" ∧ ¬l.startsWith "#").map String.trim

/-- Embedding of `load_hotwords`: `file` is the first existing candidate
file, `none` when no candidate path exists, otherwise its current
modification time and raw lines.  If the mtime equals the stored mtime and a
cache is resident, the cached list is returned with no read; otherwise the
file is read (incrementing `reads`) and the cache and stored mtime are
updated. -/
def loadHotwords (file : Option (Int × List String)) (s : HWState) :
    Option (List String) × HWState :=
  match file with
  | none => (none, s)
  | some (mt, raw) =>
    if mt = s.mtime ∧ s.cache.isSome then (s.cache, s)
    else
      let ls := parseHotwordLines raw
      (some ls, ⟨some ls, mt, s.reads + 1⟩)

/-- C8: if the first existing candidate file's mtime is unchanged between two
`load_hotwords` calls, the second call performs no file read and returns the
cached set unchanged (even if the file's content changed without touching the
mtime); and the file is re-read, with cache and stored mtime updated, exactly
when the mtime differs from the stored one. -/
theorem loadHotwords_mtime_cache (mt mt' : Int) (raw raw' : List String)
    (s0 s : HWState) (hstale : mt' ≠ s.mtime) :
    (loadHotwords (some (mt, raw))
        (loadHotwords (some (mt, raw)) s0).2 =
      loadHotwords (some (mt, raw)) s0) ∧
    (loadHotwords (some (mt, raw'))
        (loadHotwords (some (mt, raw)) s0).2).2.reads =
      (loadHotwords (some (mt, raw)) s0).2.reads ∧
    ((loadHotwords (some (mt', raw')) s).2.reads = s.reads + 1 ∧
      (loadHotwords (some (mt', raw')) s).2.cache =
        some (parseHotwordLines raw') ∧
      (loadHotwords (some (mt', raw')) s).2.mtime = mt') := by
  obtain ⟨c0, m0, r0⟩ := s0
  constructor
  · by_cases hhit : mt = m0 ∧ c0.isSome
    · simp [loadHotwords, hhit]
    · simp only [loadHotwords, if_neg hhit]
      simp
  · constructor
    · by_cases hhit : mt = m0 ∧ c0.isSome
      · simp [loadHotwords, hhit]
      · simp only [loadHotwords, if_neg hhit]
        simp
    · have hmiss : ¬(mt' = s.mtime ∧ s.cache.isSome) := fun h => hstale h.1
      simp [loadHotwords, hmiss]

/-- C8 witness: the mtime-cache theorem at a concrete store state and
concrete file snapshots whose mtimes differ. -/
theorem loadHotwords_mtime_cache_witness :
    (loadHotwords (some (5, ["Kotlin", "# c", "LoRA"]))
        (loadHotwords (some (5, ["Kotlin", "# c", "LoRA"]))
          (⟨none, 0, 0⟩ : HWState)).2 =
      loadHotwords (some (5, ["Kotlin", "# c", "LoRA"])) ⟨none, 0, 0⟩) ∧
    (loadHotwords (some (5, ["changed"]))
        (loadHotwords (some (5, ["Kotlin", "# c", "LoRA"]))
          (⟨none, 0, 0⟩ : HWState)).2).2.reads =
      (loadHotwords (some (5, ["Kotlin", "# c", "LoRA"]))
        (⟨none, 0, 0⟩ : HWState)).2.reads ∧
    ((loadHotwords (some (7, ["changed"]))
        (⟨some ["Kotlin", "LoRA"], 5, 1⟩ : HWState)).2.reads = 1 + 1 ∧
      (loadHotwords (some (7, ["changed"]))
          (⟨some ["Kotlin", "LoRA"], 5, 1⟩ : HWState)).2.cache =
        some (parseHotwordLines ["changed"]) ∧
      (loadHotwords (some (7, ["changed"]))
          (⟨some ["Kotlin", "LoRA"], 5, 1⟩ : HWState)).2.mtime = 7) := by
  exact loadHotwords_mtime_cache 5 7 ["Kotlin", "# c", "LoRA"] ["changed"]
    ⟨none, 0, 0⟩ ⟨some ["Kotlin", "LoRA"], 5, 1⟩ (by decide)

/-! ### Text primitives shared by the normalization stages

Python's `re` semantics are embedded directly for the specific patterns the
code uses: a substitution scans left to right, replaces the leftmost match,
and resumes scanning right after the replaced span (replacement text is never
rescanned).  Greedy quantifier backtracking is resolved once per pattern
shape, as noted at each scanner.  The scanners use explicit fuel
`length + 1`; every step consumes at least one input character (all patterns
here start with a nonempty literal or character class), so this fuel runs
each scan to completion. -/

/-- Python `\s` on the ASCII range (the inputs of this program); the extra
Unicode whitespace code points accepted by Python are not used anywhere in
the repository's data. -/
def isPySpace (c : Char) : Bool :=
  c = ' ' ∨ c = '\t' ∨ c = '\n' ∨ c = '\r' ∨ c = '\x0b' ∨ c = '\x0c'

/-- The `puncts` string of `remove_filler_words` (line 273).  The source
writes it as two adjacent single-quoted literals (the `''` in the middle is
an empty literal), so its value is exactly these 25 characters, with the
ASCII double quote appearing twice. -/
def puncts : List Char :=
  ['，', '。', '！', '？', '、', '；', '：', '"', '"', '（', '）', '【', '】',
   ',', '.', '!', '?', ';', ':', '\'', '(', ')', '[', ']']

/-- Membership in the filler-word boundary class `[puncts]`. -/
def isPunct (c : Char) : Bool :=
  puncts.contains c

/-- If `pat` is a prefix of `s`, return the remainder of `s`. -/
def dropPref : List Char → List Char → Option (List Char)
  | [], s => some s
  | _ :: _, [] => none
  | c :: cs, d :: ds => if c = d then dropPref cs ds else none

/-- Fuelled scanner for Python `str.replace(pat, rep)` (equivalently
`re.sub` with an escaped literal pattern): replace non-overlapping leftmost
occurrences, resuming after each replacement. -/
def strReplaceAux (pat rep : List Char) : ℕ → List Char → List Char
  | 0, s => s
  | _ + 1, [] => []
  | fuel + 1, c :: cs =>
    match dropPref pat (c :: cs) with
    | some rest => rep ++ strReplaceAux pat rep fuel rest
    | none => c :: strReplaceAux pat rep fuel cs

/-- Python `text.replace(pat, rep)` for a nonempty literal `pat`. -/
def strReplace (pat rep : List Char) (s : List Char) : List Char :=
  strReplaceAux pat rep (s.length + 1) s

/-- Python `re.sub(r'\s+', ' ', text)`: collapse every whitespace run to one
space. -/
def collapseWs : List Char → List Char
  | [] => []
  | [c] => if isPySpace c then [' '] else [c]
  | c :: d :: cs =>
    if isPySpace c ∧ isPySpace d then collapseWs (d :: cs)
    else (if isPySpace c then ' ' else c) :: collapseWs (d :: cs)

/-- Python `str.strip` with the character set given by `p`: drop matching
characters from both ends. -/
def stripP (p : Char → Bool) (s : List Char) : List Char :=
  ((s.dropWhile p).reverse.dropWhile p).reverse

theorem dropPref_length :
    ∀ pat s r, dropPref pat s = some r → r.length + pat.length = s.length := by
  intro pat
  induction pat with
  | nil =>
    intro s r h
    simp [dropPref] at h
    simp [h]
  | cons c cs ih =>
    intro s r h
    match s with
    | [] => simp [dropPref] at h
    | d :: ds =>
      simp only [dropPref] at h
      by_cases hc : c = d
      · rw [if_pos hc] at h
        have := ih ds r h
        simp [List.length_cons]
        omega
      · rw [if_neg hc] at h
        exact absurd h (by simp)

theorem dropPref_mem :
    ∀ pat s r, dropPref pat s = some r → ∀ x ∈ pat, x ∈ s := by
  intro pat
  induction pat with
  | nil =>
    intro s r _ x hx
    simp at hx
  | cons c cs ih =>
    intro s r h x hx
    match s with
    | [] => simp [dropPref] at h
    | d :: ds =>
      simp only [dropPref] at h
      by_cases hc : c = d
      · rw [if_pos hc] at h
        rcases List.mem_cons.mp hx with hx | hx
        · simp [hx, hc]
        · exact List.mem_cons_of_mem d (ih ds r h x hx)
      · rw [if_neg hc] at h
        exact absurd h (by simp)

/-- A literal replacement is the identity when some character of the pattern
does not occur in the text at all. -/
theorem strReplaceAux_id (pat rep : List Char) (x : Char) (hx : x ∈ pat) :
    ∀ fuel s, x ∉ s → strReplaceAux pat rep fuel s = s := by
  intro fuel
  induction fuel with
  | zero => intro s _; rfl
  | succ fuel ih =>
    intro s hs
    match s with
    | [] => rfl
    | c :: cs =>
      rw [strReplaceAux]
      have hnp : dropPref pat (c :: cs) = none := by
        cases hdp : dropPref pat (c :: cs) with
        | none => rfl
        | some r => exact absurd (dropPref_mem pat (c :: cs) r hdp x hx) hs
      rw [hnp]
      have hcs : x ∉ cs := fun hmem => hs (List.mem_cons_of_mem c hmem)
      rw [ih cs hcs]

theorem strReplace_id (pat rep : List Char) (x : Char) (hx : x ∈ pat)
    (s : List Char) (hs : x ∉ s) : strReplace pat rep s = s :=
  strReplaceAux_id pat rep x hx (s.length + 1) s hs

/-- Whitespace collapse is the identity on whitespace-free text. -/
theorem collapseWs_id : ∀ s : List Char, (∀ x ∈ s, ¬isPySpace x) →
    collapseWs s = s := by
  intro s
  induction s with
  | nil => intro _; rfl
  | cons c cs ih =>
    intro hs
    have hc : ¬isPySpace c := hs c (by simp)
    match cs, ih with
    | [], _ => simp [collapseWs, hc]
    | d :: ds, ih =>
      have hd : ¬isPySpace d := hs d (by simp)
      rw [collapseWs]
      rw [if_neg (by simp [hc, hd]), if_neg hc]
      rw [ih fun x hx => hs x (List.mem_cons_of_mem c hx)]

/-- The `PHONETIC_CORRECTIONS` dict (lines 135-223) in source order.  The
source literal lists `"拍森"` and `"维尤"` twice with identical values; a
Python dict literal keeps one entry per key, so they appear once here. -/
def PHONETIC_CORRECTIONS : List (String × String) :=
  [("托肯", "token"), ("透肯", "token"), ("托卡", "token"), ("图肯", "token"),
   ("透卡", "token"), ("托克", "token"),
   ("恩 beds", "embeddings"), ("恩 bedding", "embeddings"),
   ("艾 beds", "embeddings"), ("啦 bed", "LoRA"), ("罗拉", "LoRA"),
   ("劳拉", "LoRA"), ("罗娜", "LoRA"),
   ("派森", "Python"), ("拍森", "Python"), ("趴森", "Python"),
   ("泰普 script", "TypeScript"), ("泰普斯克瑞普特", "TypeScript"),
   ("凯特", "Kotlin"), ("考特林", "Kotlin"),
   ("瑞艾科特", "React"), ("瑞艾克", "React"), ("维艾尤", "Vue"),
   ("维尤", "Vue"), ("安古勒", "Angular"), ("安哥拉", "Angular"),
   ("节普斯", "GitHub"), ("吉哈布", "GitHub"), ("吉哈伯", "GitHub"),
   ("吉特", "Git"), ("给特", "Git"),
   ("麦斯库尔", "MySQL"), ("麦塞库尔", "MySQL"), ("迈斯库尔", "MySQL"),
   ("普斯特", "Postgres"), ("普斯格瑞", "PostgreSQL"),
   ("波斯格瑞", "PostgreSQL"), ("蒙勾DB", "MongoDB"), ("蒙勾", "MongoDB"),
   ("瑞迪斯", "Redis"), ("瑞地斯", "Redis"),
   ("达克", "Docker"), ("多克", "Docker"), ("道克", "Docker"),
   ("库伯奈特斯", "Kubernetes"), ("库伯奈提斯", "Kubernetes"),
   ("K八s", "K8s"), ("K八斯", "K8s"), ("奈克斯", "Nginx"),
   ("恩静克斯", "Nginx"),
   (" attentions", "attention"), ("爱腾神", "attention"),
   ("爱腾审", "attention"), ("拔特", "BERT"), ("博特", "BERT"),
   ("伯特", "BERT"), ("吉皮梯", "GPT"), ("吉皮提", "GPT"), ("吉皮踢", "GPT"),
   ("爱奥艾姆", "LLM"), ("艾奥艾姆", "LLM"),
   ("API", "API"), ("埃批艾", "API"), ("阿批艾", "API"), ("埃普艾", "API"),
   ("尤艾", "UI"), ("尤克斯", "UX"), ("西艾", "CI"), ("西迪", "CD"),
   ("西艾西迪", "CI/CD")]

/-- Stage 1, `apply_phonetic_corrections` (lines 225-242): for every
`(wrong, correct)` pair, in dict order, replace every literal occurrence
(`re.sub(re.escape(wrong), correct, ...)`), each substitution acting on the
result of the previous one. -/
def applyPhoneticCorrections (s : String) : String :=
  ⟨PHONETIC_CORRECTIONS.foldl
    (fun t pr => strReplace pr.1.data pr.2.data t) s.data⟩

/-- The measure-word alternation of `polish_sentence` line 454, in pattern
order. -/
def measureWords : List (List Char) :=
  [['个'], ['只'], ['条'], ['张'], ['本'], ['页'], ['行'], ['列'], ['米'],
   ['厘', '米'], ['公', '里'], ['千', '克'], ['克']]

/-- An ASCII decimal digit, the relevant case of Python `\d`. -/
def isDigitCh (c : Char) : Bool :=
  '0' ≤ c ∧ c ≤ '9'

/-- Try the alternation `(个|只|...|克)` at the head of `s`, first matching
alternative wins; returns the matched word and the remainder. -/
def matchMeasure (s : List Char) : Option (List Char × List Char) :=
  measureWords.foldl
    (fun acc w =>
      match acc with
      | some r => some r
      | none =>
        match dropPref w s with
        | some rest => some (w, rest)
        | none => none)
    none

/-- Fuelled scanner for `re.sub(r'(\d)\s+(个|...|克)', r'\1\2', text)`
(line 454): a digit, one or more whitespace characters (greedily consumed;
shorter runs cannot satisfy the following literal alternative), then a
measure word; the replacement drops the whitespace. -/
def mergeUnitAux : ℕ → List Char → List Char
  | 0, s => s
  | _ + 1, [] => []
  | fuel + 1, c :: cs =>
    if isDigitCh c then
      let ws := cs.takeWhile isPySpace
      if ws = [] then c :: mergeUnitAux fuel cs
      else
        match matchMeasure (cs.drop ws.length) with
        | some (w, rest) => c :: (w ++ mergeUnitAux fuel rest)
        | none => c :: mergeUnitAux fuel cs
    else c :: mergeUnitAux fuel cs

/-- The doubled-discourse-marker corrections of `polish_sentence`
lines 442-448, in order. -/
def polishPairs : List (String × String) :=
  [("那个那个", "那个"), ("这个这个", "这个"), ("然后然后", "然后"),
   ("就是就是", "就是"), ("好吧好吧", "好吧")]

/-- Stage 4, `polish_sentence` (lines 428-459): restore `1些`/`1下`, collapse
a doubled discourse marker once, and remove whitespace between a digit and a
measure word. -/
def polishSentence (s : String) : String :=
  let t := strReplace "1些".data "一些".data s.data
  let t := strReplace "1下".data "一下".data t
  let t := polishPairs.foldl (fun u pr => strReplace pr.1.data pr.2.data u) t
  ⟨mergeUnitAux (t.length + 1) t⟩

/-- Fuelled scanner for `re.sub(X + r'\s*' + X + '+', X, text)` with a
single punctuation mark `X` (the duplicate-mark patterns of
`clean_punctuation`, e.g. `r'，\s*，+'`): at a mark, greedily skip
whitespace (a shorter run cannot satisfy the following `X+`), then a
nonempty greedy run of the same mark; the whole match collapses to one mark
and scanning resumes after the consumed run. -/
def dedupMarkAux (X : Char) : ℕ → List Char → List Char
  | 0, s => s
  | _ + 1, [] => []
  | fuel + 1, c :: cs =>
    if c = X then
      let after := cs.dropWhile isPySpace
      let xs := after.takeWhile (· = X)
      if xs = [] then c :: dedupMarkAux X fuel cs
      else X :: dedupMarkAux X fuel (after.drop xs.length)
    else c :: dedupMarkAux X fuel cs

/-- One duplicate-mark substitution pass of `clean_punctuation`. -/
def dedupMark (X : Char) (s : List Char) : List Char :=
  dedupMarkAux X (s.length + 1) s

/-- Fuelled scanner for `re.sub(a + r'\s*' + b, r, text)` with distinct
marks `a, b` (the mixed-width comma patterns `r'，\s*,'` and `r',\s*，'`):
mark `a`, greedily skipped whitespace, mark `b`, replaced by the single
mark `r`. -/
def mixPairAux (a b r : Char) : ℕ → List Char → List Char
  | 0, s => s
  | _ + 1, [] => []
  | fuel + 1, c :: cs =>
    if c = a then
      match cs.dropWhile isPySpace with
      | y :: ys =>
        if y = b then r :: mixPairAux a b r fuel ys
        else c :: mixPairAux a b r fuel cs
      | [] => c :: mixPairAux a b r fuel cs
    else c :: mixPairAux a b r fuel cs

/-- One mixed-pair substitution pass of `clean_punctuation`. -/
def mixPair (a b r : Char) (s : List Char) : List Char :=
  mixPairAux a b r (s.length + 1) s

/-- The leading-punctuation class of `clean_punctuation` line 413,
`[，。！？、；：,.!?;:\s]`. -/
def isLeadPunct (c : Char) : Bool :=
  c ∈ (['，', '。', '！', '？', '、', '；', '：',
        ',', '.', '!', '?', ';', ':'] : List Char) || isPySpace c

/-- The trailing class of `clean_punctuation` line 416, `[，,\s]`. -/
def isTrailComma (c : Char) : Bool :=
  c ∈ (['，', ','] : List Char) || isPySpace c

/-- Stage 5, `clean_punctuation` (lines 385-425) on the character list, step
by step in source order: the four literal mixed-width replaces;
duplicate/mixed comma cleanup; duplicate period cleanup; duplicate
`？`/`!`/`！` cleanup (half-width `?` has no rule); strip of leading
punctuation/whitespace; strip of trailing commas/whitespace; whitespace
collapse and final strip. -/
def cleanPunctuationL (s : List Char) : List Char :=
  let t := strReplace ['，', ','] ['，'] s
  let t := strReplace [',', '，'] ['，'] t
  let t := strReplace ['。', '.'] ['。'] t
  let t := strReplace ['.', '。'] ['。'] t
  let t := dedupMark '，' t
  let t := dedupMark ',' t
  let t := mixPair '，' ',' '，' t
  let t := mixPair ',' '，' '，' t
  let t := dedupMark '。' t
  let t := dedupMark '.' t
  let t := dedupMark '？' t
  let t := dedupMark '!' t
  let t := dedupMark '！' t
  let t := t.dropWhile isLeadPunct
  let t := (t.reverse.dropWhile isTrailComma).reverse
  let t := collapseWs t
  stripP isPySpace t

/-- Stage 5, `clean_punctuation`, on strings. -/
def cleanPunctuation (s : String) : String :=
  ⟨cleanPunctuationL s.data⟩

/-- The `digit_map` of `_parse_cn` (lines 333-334). -/
def digitVal : Char → Option ℕ
  | '零' => some 0
  | '〇' => some 0
  | '一' => some 1
  | '二' => some 2
  | '三' => some 3
  | '四' => some 4
  | '五' => some 5
  | '六' => some 6
  | '七' => some 7
  | '八' => some 8
  | '九' => some 9
  | _ => none

/-- The `unit_map` of `_parse_cn` (line 335). -/
def unitVal : Char → Option ℕ
  | '十' => some 10
  | '百' => some 100
  | '千' => some 1000
  | '万' => some 10000
  | '亿' => some 100000000
  | _ => none

/-- Membership in the numeral character class
`[零〇一二三四五六七八九十百千万亿]` of the pattern on line 376. -/
def numeralCh (c : Char) : Bool :=
  (digitVal c).isSome ∨ (unitVal c).isSome

/-- The accumulation loop of `_parse_cn` (lines 345-367): a digit sets the
pending `temp`; a unit larger than the last-seen unit multiplies
`(total + temp)` by it, a unit not larger adds `temp * unit`; after the loop
the pending `temp` is added. -/
def cnLoop : List Char → ℕ → ℕ → ℕ → ℕ
  | [], total, temp, _ => total + temp
  | c :: cs, total, temp, lastUnit =>
    match digitVal c with
    | some d => cnLoop cs total d lastUnit
    | none =>
      match unitVal c with
      | some u =>
        if u > lastUnit then cnLoop cs ((total + temp) * u) 0 u
        else cnLoop cs (total + temp * u) 0 u
      | none => cnLoop cs total temp lastUnit

/-- The general branch of `_parse_cn`: a leading `十` becomes `一十`
(line 342-343), the loop runs from `total = 0`, `temp = 0`,
`last_unit = 1`, and a nonpositive final value means the run is
unparsable (`None`, lines 369-372). -/
def parseCnCore (cn : List Char) : Option ℕ :=
  let cn' :=
    match cn with
    | '十' :: rest => '一' :: '十' :: rest
    | _ => cn
  let t := cnLoop cn' 0 0 1
  if t > 0 then some t else none

/-- `_parse_cn` (lines 328-372): empty input is unparsable; a single
digit-map character short-circuits (so `零` alone parses to 0); everything
else goes through the accumulation loop. -/
def parseCn : List Char → Option ℕ
  | [] => none
  | [c] =>
    match digitVal c with
    | some d => some d
    | none => parseCnCore [c]
  | cn => parseCnCore cn

/-- Replacement for one matched run, as in `parse_number` (lines 311-326):
strip an ordinal `第`, parse, render the decimal digits and reattach the
marker, or leave the whole match unchanged if unparsable. -/
def cnReplace (ordinal : Bool) (run : List Char) : List Char :=
  match parseCn run with
  | some n => (if ordinal then ['第'] else []) ++ (Nat.repr n).data
  | none => (if ordinal then ['第'] else []) ++ run

/-- Fuelled scanner for `re.sub(r'第?[零〇一二三四五六七八九十百千万亿]+',
parse_number, text)` (lines 376-377): at each position the optional `第`
followed by a maximal nonempty numeral run is the leftmost-greedy match; a
`第` not followed by a numeral character does not match. -/
def cnScanAux : ℕ → List Char → List Char
  | 0, s => s
  | _ + 1, [] => []
  | fuel + 1, c :: cs =>
    if c = '第' then
      let run := cs.takeWhile numeralCh
      if run = [] then c :: cnScanAux fuel cs
      else cnReplace true run ++ cnScanAux fuel (cs.drop run.length)
    else if numeralCh c then
      let run := (c :: cs).takeWhile numeralCh
      cnReplace false run ++ cnScanAux fuel ((c :: cs).drop run.length)
    else c :: cnScanAux fuel cs

/-- Stage 3, `convert_chinese_numbers` (lines 304-382). -/
def convertChineseNumbers (s : String) : String :=
  ⟨cnScanAux (s.data.length + 1) s.data⟩

/-- The `FILLER_WORDS` list (lines 246-262) in source order, duplicates
included. -/
def FILLER_WORDS : List String :=
  ["啊", "嗯", "哦", "呀", "哇", "哈", "嘿", "嗯呐",
   "这个", "那个", "就是", "其实", "可能", "大概", "好像", "或许",
   "然后", "那么", "这样", "那样", "什么", "怎么", "为什么",
   "对了", "好吧", "好吧", "嗯嗯", "啊啊", "哦哦",
   "也就是说", "话句话说", "其实呢", "这个那个",
   "呃呃", "呃", "哇塞", "我去", "我靠", "我擦",
   "啦", "呀", "哦", "吧", "呢", "吗", "啊", "哈",
   "um", "uh", "er", "like", "you know", "basically", "actually",
   "literally", "so yeah", "you see"]

/-- Insert keeping a longest-first order: strictly longer words come first,
equal lengths keep insertion order (Python's stable `sorted` with
`key=len, reverse=True`). -/
def insertByLen (w : String) : List String → List String
  | [] => [w]
  | x :: xs =>
    if x.length < w.length then w :: x :: xs else x :: insertByLen w xs

/-- Line 276, `sorted(set(FILLER_WORDS), key=len, reverse=True)`: duplicates
removed (first occurrence kept) and a stable longest-first sort.  CPython's
`set` iteration order for strings is hash-randomized per process, so ties
between equal-length words have no canonical order; this embedding fixes the
first-occurrence order for ties. -/
def sortedFillerWords : List String :=
  (FILLER_WORDS.foldl
    (fun acc w => if acc.contains w then acc else acc ++ [w]) []).foldl
    (fun acc w => insertByLen w acc) []

/-- The end-boundary group `($|\s|[puncts])` at `rest`: `$` first (matching
nothing at the end of text), otherwise one whitespace or punctuation
character; returns the matched group text and the remainder. -/
def boundaryEnd (rest : List Char) : Option (List Char × List Char) :=
  match rest with
  | [] => some ([], [])
  | c :: rs => if isPySpace c ∨ isPunct c then some ([c], rs) else none

/-- One attempted match of `(^|\s|[puncts])WORD($|\s|[puncts])` at the
current position (`atStart` true only at position 0, where the `^`
alternative is tried first).  Returns the replacement `\1\2` and the
remainder after the whole match. -/
def fillerMatch (w : List Char) (atStart : Bool) (s : List Char) :
    Option (List Char × List Char) :=
  let viaStart : Option (List Char × List Char) :=
    if atStart then
      match dropPref w s with
      | some rest =>
        match boundaryEnd rest with
        | some (g2, rem) => some (g2, rem)
        | none => none
      | none => none
    else none
  match viaStart with
  | some r => some r
  | none =>
    match s with
    | [] => none
    | c :: cs =>
      if isPySpace c ∨ isPunct c then
        match dropPref w cs with
        | some rest =>
          match boundaryEnd rest with
          | some (g2, rem) => some (c :: g2, rem)
          | none => none
        | none => none
      else none

/-- Fuelled scanner for one `re.sub` over the whole text with the bounded
filler pattern (line 283-284): leftmost match, replaced by its boundary
groups `\1\2`, scanning resuming after the match. -/
def subFillerAux (w : List Char) : ℕ → Bool → List Char → List Char
  | 0, _, s => s
  | fuel + 1, atStart, s =>
    match fillerMatch w atStart s with
    | some (repl, rem) => repl ++ subFillerAux w fuel false rem
    | none =>
      match s with
      | [] => []
      | c :: cs => c :: subFillerAux w fuel false cs

/-- One bounded-word substitution over the text. -/
def subFiller (w : List Char) (s : List Char) : List Char :=
  subFillerAux w (s.length + 1) true s

/-- One pass of the inner `for word in words` loop (lines 281-287): each
word's substitution acts on the text left by the previous word. -/
def fillerPass (s : List Char) : List Char :=
  sortedFillerWords.foldl (fun t w => subFiller w.data t) s

/-- The outer `for _ in range(3)` loop with its early break (lines 279-290):
up to three passes, stopping as soon as a pass leaves the text unchanged
(each substitution only ever deletes characters, so `changed` is equivalent
to the pass changing the text). -/
def fillerIters : ℕ → List Char → List Char
  | 0, s => s
  | n + 1, s =>
    let s' := fillerPass s
    if s' = s then s else fillerIters n s'

/-- Stage 2, `remove_filler_words` (lines 264-301): the bounded-word passes,
then whitespace collapse, then `strip(' ' + puncts)`. -/
def removeFillerWords (s : String) : String :=
  let t := fillerIters 3 s.data
  let t := collapseWs t
  ⟨stripP (fun c => c = ' ' ∨ isPunct c) t⟩

theorem dropWhile_id_of (p : Char → Bool) (s : List Char)
    (hs : ∀ x ∈ s, ¬p x) : s.dropWhile p = s := by
  cases s with
  | nil => rfl
  | cons c cs =>
    rw [List.dropWhile_cons, if_neg]
    simp [hs c (by simp)]

theorem stripP_id (p : Char → Bool) (s : List Char) (hs : ∀ x ∈ s, ¬p x) :
    stripP p s = s := by
  rw [stripP, dropWhile_id_of p s hs, dropWhile_id_of]
  · simp
  · intro x hx
    exact hs x (List.mem_reverse.mp hx)

theorem cnScanAux_nil (fuel : ℕ) : cnScanAux fuel [] = [] := by
  cases fuel <;> rfl

theorem takeWhile_all (p : Char → Bool) :
    ∀ l : List Char, (∀ c ∈ l, p c) → l.takeWhile p = l := by
  intro l
  induction l with
  | nil => intro _; rfl
  | cons c cs ih =>
    intro h
    rw [List.takeWhile_cons, if_pos (h c (by simp))]
    rw [ih fun x hx => h x (List.mem_cons_of_mem c hx)]

/-- C5: `convert_chinese_numbers` replaces a maximal numeral run, optionally
preceded by the ordinal marker `第`, by the place-value parse result
(rendered in decimal, the marker reattached, unparsable runs left
unmodified), and on the spec's examples: `十二`→`12` (leading `十` as
`一十`), `二十`→`20`, `九十九`→`99`, `第十二`→`第12`, `一百二十三`→`123`
(a larger unit multiplies the accumulated total plus pending digit), with an
embedded run converted in place and an unparsable run (`零零`) unmodified. -/
theorem convertChineseNumbers_spec :
    (∀ run : List Char, run ≠ [] → (∀ c ∈ run, numeralCh c) →
      convertChineseNumbers ⟨'第' :: run⟩ = ⟨cnReplace true run⟩ ∧
        convertChineseNumbers ⟨run⟩ = ⟨cnReplace false run⟩) ∧
      convertChineseNumbers "十二" = "12" ∧
      convertChineseNumbers "二十" = "20" ∧
      convertChineseNumbers "九十九" = "99" ∧
      convertChineseNumbers "第十二" = "第12" ∧
      convertChineseNumbers "一百二十三" = "123" ∧
      convertChineseNumbers "共十二个" = "共12个" ∧
      convertChineseNumbers "零零" = "零零" := by
  refine ⟨?_, by decide, by decide, by decide, by decide, by decide,
    by decide, by decide⟩
  intro run hne hall
  have htw : run.takeWhile numeralCh = run := takeWhile_all numeralCh run hall
  constructor
  · show String.mk (cnScanAux (('第' :: run).length + 1) ('第' :: run)) = _
    have hlen : ('第' :: run).length + 1 = (run.length + 1) + 1 := by
      simp
    rw [hlen, cnScanAux]
    rw [if_pos rfl, htw]
    rw [if_neg hne]
    rw [List.drop_length, cnScanAux_nil]
    simp
  · match run, hne with
    | c :: cs, _ =>
      show String.mk (cnScanAux ((c :: cs).length + 1) (c :: cs)) = _
      have hlen : (c :: cs).length + 1 = (cs.length + 1) + 1 := by simp
      rw [hlen, cnScanAux]
      have hcnum : numeralCh c := hall c (by simp)
      have hcne : ¬c = '第' := by
        intro hcon
        rw [hcon] at hcnum
        exact absurd hcnum (by decide)
      rw [if_neg hcne, if_pos hcnum]
      simp only [htw, List.drop_length, cnScanAux_nil]
      simp

/-- C5 witness: the general replacement clause applied at the concrete run
`十二`, whose place-value parse is 12. -/
theorem convertChineseNumbers_spec_witness :
    convertChineseNumbers ⟨'第' :: "十二".data⟩ = ⟨cnReplace true "十二".data⟩ ∧
      convertChineseNumbers ⟨"十二".data⟩ = ⟨cnReplace false "十二".data⟩ :=
  convertChineseNumbers_spec.1 "十二".data (by decide) (by decide)

/-- Decides whether the bounded pattern for `w` matches anywhere in `s`
(`atStart` true at position 0): exactly the positions the `re.sub` scan
tries. -/
def hasFillerMatch (w : List Char) : Bool → List Char → Bool
  | atStart, [] => (fillerMatch w atStart []).isSome
  | atStart, c :: cs => (fillerMatch w atStart (c :: cs)).isSome ||
      hasFillerMatch w false cs

/-- A substitution never changes text in which its pattern matches
nowhere — in particular a filler sequence embedded inside a longer token is
never deleted. -/
theorem subFillerAux_id (w : List Char) :
    ∀ s : List Char, ∀ fuel atStart, hasFillerMatch w atStart s = false →
      subFillerAux w fuel atStart s = s := by
  intro s
  induction s with
  | nil =>
    intro fuel atStart h
    rw [hasFillerMatch] at h
    have hm : fillerMatch w atStart [] = none :=
      Option.not_isSome_iff_eq_none.mp (by simp [h])
    cases fuel with
    | zero => rfl
    | succ fuel => rw [subFillerAux, hm]
  | cons c cs ih =>
    intro fuel atStart h
    rw [hasFillerMatch] at h
    simp only [Bool.or_eq_false_iff] at h
    have hm : fillerMatch w atStart (c :: cs) = none :=
      Option.not_isSome_iff_eq_none.mp (by simp [h.1])
    cases fuel with
    | zero => rfl
    | succ fuel =>
      rw [subFillerAux, hm]
      rw [ih fuel false h.2]

theorem subFiller_id (w s : List Char) (h : hasFillerMatch w true s = false) :
    subFiller w s = s :=
  subFillerAux_id w s (s.length + 1) true h

theorem fillerFold_id :
    ∀ ws : List String, ∀ s : List Char,
      (∀ w ∈ ws, hasFillerMatch w.data true s = false) →
      ws.foldl (fun t w => subFiller w.data t) s = s := by
  intro ws
  induction ws with
  | nil => intro s _; rfl
  | cons w ws ih =>
    intro s h
    rw [List.foldl_cons, subFiller_id w.data s (h w (by simp))]
    exact ih s fun x hx => h x (List.mem_cons_of_mem w hx)

set_option maxRecDepth 16384 in
/-- C6: `remove_filler_words` deletes a filler word exactly when it is
bounded on both sides by start/end of text, whitespace or punctuation, in at
most 3 early-stopping passes, and never deletes the sequence embedded inside
a longer token; it finishes by collapsing whitespace runs and stripping
leading/trailing spaces and punctuation.  The first clause: on text where no
candidate word occurs at a bounded position, the passes delete nothing and
only the final cleanup applies.  The instances: a word bounded by start and
a comma is deleted (`嗯`), the longest candidate is preferred
(`这个那个`), embedded occurrences survive unchanged (`然后` inside
`自然后面有山`, `like` inside `unlikely`), a space-bounded word is deleted
with its boundary collapsed (`I like it`), adjacent fillers need and get a
second pass (`嗯 嗯`), and the cleanup collapses and trims whitespace. -/
theorem removeFillerWords_spec :
    (∀ s : String,
      (∀ w ∈ sortedFillerWords, hasFillerMatch w.data true s.data = false) →
      removeFillerWords s =
        ⟨stripP (fun c => c = ' ' ∨ isPunct c) (collapseWs s.data)⟩) ∧
      removeFillerWords "嗯，我想测试" = "我想测试" ∧
      removeFillerWords "这个那个，测试" = "测试" ∧
      removeFillerWords "自然后面有山" = "自然后面有山" ∧
      removeFillerWords "unlikely" = "unlikely" ∧
      removeFillerWords "I like it" = "I it" ∧
      removeFillerWords "嗯 嗯" = "" ∧
      removeFillerWords "um  hello   world" = "hello world" := by
  refine ⟨?_, by decide, by decide, by decide, by decide, by decide,
    by decide, by decide⟩
  intro s h
  have hpass : fillerPass s.data = s.data := fillerFold_id sortedFillerWords s.data h
  rw [removeFillerWords]
  rw [show fillerIters 3 s.data = s.data by rw [fillerIters, hpass]; simp]

set_option maxRecDepth 16384 in
/-- C6 witness: the no-bounded-occurrence clause applied at the concrete
text `unlikelyX`, in which every candidate occurrence is embedded. -/
theorem removeFillerWords_spec_witness :
    removeFillerWords "unlikelyX" =
      ⟨stripP (fun c => c = ' ' ∨ isPunct c) (collapseWs "unlikelyX".data)⟩ :=
  removeFillerWords_spec.1 "unlikelyX" (by decide)

theorem dedupMarkAux_nil (X : Char) (fuel : ℕ) : dedupMarkAux X fuel [] = [] := by
  cases fuel <;> rfl

theorem dedupMarkAux_id (X : Char) :
    ∀ s : List Char, ∀ fuel, X ∉ s → dedupMarkAux X fuel s = s := by
  intro s
  induction s with
  | nil => intro fuel _; exact dedupMarkAux_nil X fuel
  | cons c cs ih =>
    intro fuel h
    have hc : ¬(c = X) := fun hcon => h (by simp [hcon])
    have hcs : X ∉ cs := fun hm => h (List.mem_cons_of_mem c hm)
    cases fuel with
    | zero => rfl
    | succ f => rw [dedupMarkAux, if_neg hc, ih f hcs]

/-- A duplicate-mark substitution is the identity when the mark does not
occur in the text. -/
theorem dedupMark_id (X : Char) (s : List Char) (h : X ∉ s) :
    dedupMark X s = s :=
  dedupMarkAux_id X s (s.length + 1) h

theorem mem_dropWhile (p : Char → Bool) :
    ∀ l : List Char, ∀ x, x ∈ l.dropWhile p → x ∈ l := by
  intro l
  induction l with
  | nil => intro x h; exact absurd h (by simp)
  | cons c cs ih =>
    intro x h
    rw [List.dropWhile_cons] at h
    cases hp : p c
    · rw [if_neg (by simp [hp])] at h
      exact h
    · rw [if_pos hp] at h
      exact List.mem_cons_of_mem c (ih x h)

theorem mixPairAux_id (a b r : Char) :
    ∀ s : List Char, ∀ fuel, a ∉ s ∨ b ∉ s → mixPairAux a b r fuel s = s := by
  intro s
  induction s with
  | nil => intro fuel _; cases fuel <;> rfl
  | cons c cs ih =>
    intro fuel h
    have hcs : a ∉ cs ∨ b ∉ cs := by
      rcases h with h | h
      · exact Or.inl fun hm => h (List.mem_cons_of_mem c hm)
      · exact Or.inr fun hm => h (List.mem_cons_of_mem c hm)
    cases fuel with
    | zero => rfl
    | succ f =>
      rw [mixPairAux]
      by_cases hca : c = a
      · have hb : b ∉ c :: cs := by
          rcases h with h | h
          · exact absurd (by simp [hca] : a ∈ c :: cs) h
          · exact h
        rw [if_pos hca]
        cases hdw : cs.dropWhile isPySpace with
        | nil =>
          simp only [hdw]
          rw [ih f hcs]
        | cons y ys =>
          have hy : y ∈ cs :=
            mem_dropWhile isPySpace cs y (by rw [hdw]; simp)
          have hyb : ¬(y = b) := fun hcon =>
            hb (hcon ▸ List.mem_cons_of_mem c hy)
          simp only [hdw]
          rw [if_neg hyb, ih f hcs]
      · rw [if_neg hca, ih f hcs]

/-- A mixed-pair substitution is the identity when either of its two marks
does not occur in the text. -/
theorem mixPair_id (a b r : Char) (s : List Char) (h : a ∉ s ∨ b ∉ s) :
    mixPair a b r s = s :=
  mixPairAux_id a b r s (s.length + 1) h

/-- A two-character literal replacement is the identity when either
character does not occur in the text. -/
theorem strReplace_pair_id (x y : Char) (rep s : List Char)
    (h : x ∉ s ∨ y ∉ s) : strReplace [x, y] rep s = s := by
  rcases h with h | h
  · exact strReplace_id [x, y] rep x (by simp) s h
  · exact strReplace_id [x, y] rep y (by simp) s h

theorem run_not_mem (c x : Char) (n : ℕ) (hx : ¬(x = 'a' ∨ x = c ∨ x = 'b')) :
    x ∉ ('a' :: (List.replicate n c ++ ['b'])) := by
  intro hmem
  rcases List.mem_cons.mp hmem with h | h
  · exact hx (Or.inl h)
  · rcases List.mem_append.mp h with h | h
    · exact hx (Or.inr (Or.inl (List.eq_of_mem_replicate h)))
    · exact hx (Or.inr (Or.inr (by simpa using h)))

theorem takeWhile_replicate_concat (c : Char) (hbc : ¬(('b' : Char) = c)) :
    ∀ m, (List.replicate m c ++ ['b']).takeWhile (· = c) =
      List.replicate m c := by
  intro m
  induction m with
  | zero => simp [List.takeWhile_cons, hbc]
  | succ m ih => simp [List.replicate_succ, List.takeWhile_cons, ih]

theorem dedupMarkAux_b (c : Char) (hbc : ¬(('b' : Char) = c)) (fuel : ℕ) :
    dedupMarkAux c fuel ['b'] = ['b'] := by
  cases fuel with
  | zero => rfl
  | succ f => rw [dedupMarkAux, if_neg hbc, dedupMarkAux_nil]

theorem dedupMarkAux_run (c : Char) (hsp : isPySpace c = false)
    (hac : ¬(('a' : Char) = c)) (hbc : ¬(('b' : Char) = c)) (m : ℕ) :
    ∀ fuel, 2 ≤ fuel →
      dedupMarkAux c fuel ('a' :: (List.replicate (m + 2) c ++ ['b'])) =
        ['a', c, 'b'] := by
  intro fuel hf
  obtain ⟨f, rfl⟩ : ∃ f, fuel = f + 2 := ⟨fuel - 2, by omega⟩
  have hinner : dedupMarkAux c (f + 1) (List.replicate (m + 2) c ++ ['b']) =
      [c, 'b'] := by
    rw [List.replicate_succ, List.cons_append, dedupMarkAux]
    rw [if_pos rfl]
    have hafter : (List.replicate (m + 1) c ++ ['b']).dropWhile isPySpace =
        List.replicate (m + 1) c ++ ['b'] := by
      apply dropWhile_id_of
      intro x hx
      rcases List.mem_append.mp hx with h | h
      · rw [List.eq_of_mem_replicate h]
        simp [hsp]
      · have : x = 'b' := by simpa using h
        rw [this]
        decide
    simp only [hafter, takeWhile_replicate_concat c hbc (m + 1)]
    rw [if_neg (by simp)]
    rw [List.drop_left]
    rw [dedupMarkAux_b c hbc f]
  rw [dedupMarkAux, if_neg hac, hinner]

/-- A bracketed homogeneous run of at least two marks collapses to a single
mark: `dedupMark c "a" ++ c^n ++ "b" = "a" ++ c ++ "b"`. -/
theorem dedupMark_run (c : Char) (hsp : isPySpace c = false)
    (hac : ¬(('a' : Char) = c)) (hbc : ¬(('b' : Char) = c)) (n : ℕ)
    (hn : 2 ≤ n) :
    dedupMark c ('a' :: (List.replicate n c ++ ['b'])) = ['a', c, 'b'] := by
  obtain ⟨m, rfl⟩ : ∃ m, n = m + 2 := ⟨n - 2, by omega⟩
  rw [dedupMark]
  apply dedupMarkAux_run c hsp hac hbc m
  simp

theorem dropWhile_head_false (p : Char → Bool) :
    ∀ l : List Char, l.dropWhile p = [] ∨
      ∃ hd tl, l.dropWhile p = hd :: tl ∧ p hd = false := by
  intro l
  induction l with
  | nil => left; rfl
  | cons c cs ih =>
    rw [List.dropWhile_cons]
    by_cases hp : p c = true
    · rw [if_pos hp]
      exact ih
    · right
      exact ⟨c, cs, by rw [if_neg hp], by simpa using hp⟩

theorem exists_dropWhile_decomp (p : Char → Bool) :
    ∀ l : List Char, ∃ v, l = v ++ l.dropWhile p := by
  intro l
  induction l with
  | nil => exact ⟨[], rfl⟩
  | cons c cs ih =>
    rw [List.dropWhile_cons]
    by_cases hp : p c = true
    · obtain ⟨v, hv⟩ := ih
      refine ⟨c :: v, ?_⟩
      rw [if_pos hp, List.cons_append, ← hv]
    · exact ⟨[], by rw [if_neg hp]; rfl⟩

theorem collapseWs_cons (c : Char) (hc : isPySpace c = false) :
    ∀ rest, collapseWs (c :: rest) = c :: collapseWs rest := by
  intro rest
  cases rest with
  | nil => simp [collapseWs, hc]
  | cons d ds =>
    rw [collapseWs, if_neg (by simp [hc]), if_neg (by simp [hc])]

theorem collapse_concat :
    ∀ q : List Char, ∀ x, isPySpace x = false →
      ∃ q', collapseWs (q ++ [x]) = q' ++ [x] := by
  intro q
  induction q with
  | nil =>
    intro x hx
    exact ⟨[], by simp [collapseWs, hx]⟩
  | cons c q ih =>
    intro x hx
    match q, ih with
    | [], _ =>
      refine ⟨[if isPySpace c then ' ' else c], ?_⟩
      rw [show ([c] ++ [x] : List Char) = c :: x :: [] from rfl, collapseWs]
      rw [if_neg (by simp [hx])]
      simp [collapseWs, hx]
    | d :: q', ih =>
      rw [show ((c :: d :: q') ++ [x] : List Char) = c :: d :: (q' ++ [x])
        from rfl, collapseWs]
      obtain ⟨q'', hq⟩ := ih x hx
      have hq' : collapseWs (d :: (q' ++ [x])) = q'' ++ [x] := hq
      by_cases hcd : isPySpace c = true ∧ isPySpace d = true
      · rw [if_pos (by simp [hcd.1, hcd.2])]
        exact ⟨q'', hq'⟩
      · rw [if_neg (by simpa using hcd)]
        refine ⟨(if isPySpace c then ' ' else c) :: q'', ?_⟩
        rw [hq']
        rfl

theorem dropWhile_concat (p : Char → Bool) :
    ∀ q : List Char, ∀ x, p x = false →
      ∃ q', (q ++ [x]).dropWhile p = q' ++ [x] := by
  intro q
  induction q with
  | nil =>
    intro x hx
    exact ⟨[], by simp [List.dropWhile_cons, hx]⟩
  | cons c q ih =>
    intro x hx
    rw [List.cons_append, List.dropWhile_cons]
    by_cases hp : p c = true
    · rw [if_pos hp]
      exact ih x hx
    · exact ⟨c :: q, by rw [if_neg hp]; rfl⟩

/-- The first character of `clean_punctuation`'s output never lies in the
stripped leading class: whatever the text produced by the substitution
stages, the tail cleanup removes every leading class character and cannot
re-create one. -/
theorem cleanupTail_head (v : List Char) (x : Char) (rest : List Char)
    (h : stripP isPySpace (collapseWs
      (((v.dropWhile isLeadPunct).reverse.dropWhile isTrailComma).reverse)) =
      x :: rest) :
    isLeadPunct x = false := by
  rcases dropWhile_head_false isLeadPunct v with hu | ⟨hd, tl, hu, hhd⟩
  · rw [hu] at h
    simp [collapseWs, stripP] at h
  · rw [hu] at h
    obtain ⟨v2, hv2⟩ := exists_dropWhile_decomp isTrailComma (hd :: tl).reverse
    have hsplit : hd :: tl =
        ((hd :: tl).reverse.dropWhile isTrailComma).reverse ++ v2.reverse := by
      have hr := congrArg List.reverse hv2
      simpa [List.reverse_append] using hr
    cases hDr : ((hd :: tl).reverse.dropWhile isTrailComma).reverse with
    | nil =>
      rw [hDr] at h
      simp [collapseWs, stripP] at h
    | cons wh wt =>
      rw [hDr] at hsplit h
      rw [List.cons_append] at hsplit
      injection hsplit with h1 _
      have hds : isPySpace hd = false := by
        cases hsp : isPySpace hd
        · rfl
        · have htrue : isLeadPunct hd = true := by
            simp [isLeadPunct, hsp]
          rw [htrue] at hhd
          simp at hhd
      rw [← h1] at h
      rw [collapseWs_cons hd hds] at h
      rw [stripP] at h
      rw [List.dropWhile_cons, if_neg (by simp [hds])] at h
      obtain ⟨v3, hv3⟩ :=
        exists_dropWhile_decomp isPySpace (hd :: collapseWs wt).reverse
      have hsplit2 : hd :: collapseWs wt =
          ((hd :: collapseWs wt).reverse.dropWhile isPySpace).reverse ++
            v3.reverse := by
        have hr := congrArg List.reverse hv3
        simpa [List.reverse_append] using hr
      rw [h, List.cons_append] at hsplit2
      injection hsplit2 with h2 _
      rw [← h2]
      exact hhd

/-- The last character of `clean_punctuation`'s output never lies in the
stripped trailing class. -/
theorem cleanupTail_last (v : List Char) (x : Char)
    (h : (stripP isPySpace (collapseWs
      (((v.dropWhile isLeadPunct).reverse.dropWhile isTrailComma).reverse))).getLast? =
      some x) :
    isTrailComma x = false := by
  rcases dropWhile_head_false isTrailComma (v.dropWhile isLeadPunct).reverse
    with hD | ⟨hd, tl, hD, hhd⟩
  · rw [hD] at h
    simp [collapseWs, stripP] at h
  · rw [hD] at h
    have hds : isPySpace hd = false := by
      cases hsp : isPySpace hd
      · rfl
      · have htrue : isTrailComma hd = true := by
          simp [isTrailComma, hsp]
        rw [htrue] at hhd
        simp at hhd
    rw [List.reverse_cons] at h
    obtain ⟨q1, hq1⟩ := collapse_concat tl.reverse hd hds
    rw [hq1] at h
    rw [stripP] at h
    obtain ⟨q2, hq2⟩ := dropWhile_concat isPySpace q1 hd hds
    rw [hq2] at h
    simp only [List.reverse_append, List.reverse_cons, List.reverse_nil,
      List.nil_append, List.singleton_append] at h
    rw [List.dropWhile_cons, if_neg (by simp [hds])] at h
    simp only [List.reverse_cons, List.reverse_reverse] at h
    rw [List.getLast?_concat] at h
    injection h with h1
    rw [← h1]
    exact hhd

theorem strDataMk (l : List Char) : (⟨l⟩ : String).data = l := rfl

theorem cleanPunctuation_eq (s : String) :
    cleanPunctuation s = ⟨cleanPunctuationL s.data⟩ := rfl

theorem cleanPunctuation_data (s : String) :
    (cleanPunctuation s).data = cleanPunctuationL s.data := by
  rw [cleanPunctuation_eq, strDataMk]

/-- C7 counterexample: `clean_punctuation` does not behave as the claim
states.  A run of three half-width question marks is not collapsed at all
(no rule covers `?`), and the function is not idempotent: on
`"a， ， ，b"` the comma pattern's scan resumes after each match, so one
application leaves `"a， ，b"` and a second application shortens it further
to `"a，b"`. -/
theorem cleanPunctuation_counterexample :
    cleanPunctuation "a???b" = "a???b" ∧
      cleanPunctuation "a???b" ≠ "a?b" ∧
      cleanPunctuation "a， ， ，b" = "a， ，b" ∧
      cleanPunctuation (cleanPunctuation "a， ， ，b") = "a，b" ∧
      cleanPunctuation (cleanPunctuation "a， ， ，b") ≠
        cleanPunctuation "a， ， ，b" := by
  refine ⟨?_, ?_, ?_, ?_, ?_⟩ <;> decide

/-- C7 (amended): `clean_punctuation` collapses every bracketed run of 3 or
more identical terminal punctuation marks among the full-width marks
`，`, `。`, `？`, `！` and the half-width marks `,`, `.`, `!` — but not the
half-width question mark — to exactly one mark; it strips all leading
punctuation and whitespace and all trailing commas and whitespace (the
output never starts with a leading-class character nor ends with a
trailing-class character); it is not idempotent in general. -/
theorem cleanPunctuation_amended :
    (∀ n, 3 ≤ n → ∀ c, c ∈ (['，', ',', '。', '.', '？', '!', '！'] : List Char) →
      cleanPunctuation ⟨'a' :: (List.replicate n c ++ ['b'])⟩ =
        ⟨['a', c, 'b']⟩) ∧
      (∀ t : String, ∀ x rest, (cleanPunctuation t).data = x :: rest →
        isLeadPunct x = false) ∧
      (∀ t : String, ∀ x, (cleanPunctuation t).data.getLast? = some x →
        isTrailComma x = false) := by
  refine ⟨?_, ?_, ?_⟩
  · intro n hn c hc
    have hn2 : 2 ≤ n := by omega
    show String.mk (cleanPunctuationL ('a' :: (List.replicate n c ++ ['b']))) = _
    apply congrArg String.mk
    fin_cases hc
    · simp only [cleanPunctuationL]
      rw [strReplace_pair_id '，' ',' _ _ (Or.inr (run_not_mem '，' ',' n (by decide)))]
      rw [strReplace_pair_id ',' '，' _ _ (Or.inl (run_not_mem '，' ',' n (by decide)))]
      rw [strReplace_pair_id '。' '.' _ _ (Or.inl (run_not_mem '，' '。' n (by decide)))]
      rw [strReplace_pair_id '.' '。' _ _ (Or.inl (run_not_mem '，' '.' n (by decide)))]
      rw [dedupMark_run '，' (by decide) (by decide) (by decide) n hn2]
      decide
    · simp only [cleanPunctuationL]
      rw [strReplace_pair_id '，' ',' _ _ (Or.inl (run_not_mem ',' '，' n (by decide)))]
      rw [strReplace_pair_id ',' '，' _ _ (Or.inr (run_not_mem ',' '，' n (by decide)))]
      rw [strReplace_pair_id '。' '.' _ _ (Or.inl (run_not_mem ',' '。' n (by decide)))]
      rw [strReplace_pair_id '.' '。' _ _ (Or.inl (run_not_mem ',' '.' n (by decide)))]
      rw [dedupMark_id '，' _ (run_not_mem ',' '，' n (by decide))]
      rw [dedupMark_run ',' (by decide) (by decide) (by decide) n hn2]
      decide
    · simp only [cleanPunctuationL]
      rw [strReplace_pair_id '，' ',' _ _ (Or.inl (run_not_mem '。' '，' n (by decide)))]
      rw [strReplace_pair_id ',' '，' _ _ (Or.inl (run_not_mem '。' ',' n (by decide)))]
      rw [strReplace_pair_id '。' '.' _ _ (Or.inr (run_not_mem '。' '.' n (by decide)))]
      rw [strReplace_pair_id '.' '。' _ _ (Or.inl (run_not_mem '。' '.' n (by decide)))]
      rw [dedupMark_id '，' _ (run_not_mem '。' '，' n (by decide))]
      rw [dedupMark_id ',' _ (run_not_mem '。' ',' n (by decide))]
      rw [mixPair_id '，' ',' '，' _ (Or.inl (run_not_mem '。' '，' n (by decide)))]
      rw [mixPair_id ',' '，' '，' _ (Or.inl (run_not_mem '。' ',' n (by decide)))]
      rw [dedupMark_run '。' (by decide) (by decide) (by decide) n hn2]
      decide
    · simp only [cleanPunctuationL]
      rw [strReplace_pair_id '，' ',' _ _ (Or.inl (run_not_mem '.' '，' n (by decide)))]
      rw [strReplace_pair_id ',' '，' _ _ (Or.inl (run_not_mem '.' ',' n (by decide)))]
      rw [strReplace_pair_id '。' '.' _ _ (Or.inl (run_not_mem '.' '。' n (by decide)))]
      rw [strReplace_pair_id '.' '。' _ _ (Or.inr (run_not_mem '.' '。' n (by decide)))]
      rw [dedupMark_id '，' _ (run_not_mem '.' '，' n (by decide))]
      rw [dedupMark_id ',' _ (run_not_mem '.' ',' n (by decide))]
      rw [mixPair_id '，' ',' '，' _ (Or.inl (run_not_mem '.' '，' n (by decide)))]
      rw [mixPair_id ',' '，' '，' _ (Or.inl (run_not_mem '.' ',' n (by decide)))]
      rw [dedupMark_id '。' _ (run_not_mem '.' '。' n (by decide))]
      rw [dedupMark_run '.' (by decide) (by decide) (by decide) n hn2]
      decide
    · simp only [cleanPunctuationL]
      rw [strReplace_pair_id '，' ',' _ _ (Or.inl (run_not_mem '？' '，' n (by decide)))]
      rw [strReplace_pair_id ',' '，' _ _ (Or.inl (run_not_mem '？' ',' n (by decide)))]
      rw [strReplace_pair_id '。' '.' _ _ (Or.inl (run_not_mem '？' '。' n (by decide)))]
      rw [strReplace_pair_id '.' '。' _ _ (Or.inl (run_not_mem '？' '.' n (by decide)))]
      rw [dedupMark_id '，' _ (run_not_mem '？' '，' n (by decide))]
      rw [dedupMark_id ',' _ (run_not_mem '？' ',' n (by decide))]
      rw [mixPair_id '，' ',' '，' _ (Or.inl (run_not_mem '？' '，' n (by decide)))]
      rw [mixPair_id ',' '，' '，' _ (Or.inl (run_not_mem '？' ',' n (by decide)))]
      rw [dedupMark_id '。' _ (run_not_mem '？' '。' n (by decide))]
      rw [dedupMark_id '.' _ (run_not_mem '？' '.' n (by decide))]
      rw [dedupMark_run '？' (by decide) (by decide) (by decide) n hn2]
      decide
    · simp only [cleanPunctuationL]
      rw [strReplace_pair_id '，' ',' _ _ (Or.inl (run_not_mem '!' '，' n (by decide)))]
      rw [strReplace_pair_id ',' '，' _ _ (Or.inl (run_not_mem '!' ',' n (by decide)))]
      rw [strReplace_pair_id '。' '.' _ _ (Or.inl (run_not_mem '!' '。' n (by decide)))]
      rw [strReplace_pair_id '.' '。' _ _ (Or.inl (run_not_mem '!' '.' n (by decide)))]
      rw [dedupMark_id '，' _ (run_not_mem '!' '，' n (by decide))]
      rw [dedupMark_id ',' _ (run_not_mem '!' ',' n (by decide))]
      rw [mixPair_id '，' ',' '，' _ (Or.inl (run_not_mem '!' '，' n (by decide)))]
      rw [mixPair_id ',' '，' '，' _ (Or.inl (run_not_mem '!' ',' n (by decide)))]
      rw [dedupMark_id '。' _ (run_not_mem '!' '。' n (by decide))]
      rw [dedupMark_id '.' _ (run_not_mem '!' '.' n (by decide))]
      rw [dedupMark_id '？' _ (run_not_mem '!' '？' n (by decide))]
      rw [dedupMark_run '!' (by decide) (by decide) (by decide) n hn2]
      decide
    · simp only [cleanPunctuationL]
      rw [strReplace_pair_id '，' ',' _ _ (Or.inl (run_not_mem '！' '，' n (by decide)))]
      rw [strReplace_pair_id ',' '，' _ _ (Or.inl (run_not_mem '！' ',' n (by decide)))]
      rw [strReplace_pair_id '。' '.' _ _ (Or.inl (run_not_mem '！' '。' n (by decide)))]
      rw [strReplace_pair_id '.' '。' _ _ (Or.inl (run_not_mem '！' '.' n (by decide)))]
      rw [dedupMark_id '，' _ (run_not_mem '！' '，' n (by decide))]
      rw [dedupMark_id ',' _ (run_not_mem '！' ',' n (by decide))]
      rw [mixPair_id '，' ',' '，' _ (Or.inl (run_not_mem '！' '，' n (by decide)))]
      rw [mixPair_id ',' '，' '，' _ (Or.inl (run_not_mem '！' ',' n (by decide)))]
      rw [dedupMark_id '。' _ (run_not_mem '！' '。' n (by decide))]
      rw [dedupMark_id '.' _ (run_not_mem '！' '.' n (by decide))]
      rw [dedupMark_id '？' _ (run_not_mem '！' '？' n (by decide))]
      rw [dedupMark_id '!' _ (run_not_mem '！' '!' n (by decide))]
      rw [dedupMark_run '！' (by decide) (by decide) (by decide) n hn2]
      decide
  · intro t x rest h
    rw [cleanPunctuation_data] at h
    simp only [cleanPunctuationL] at h
    exact cleanupTail_head _ x rest h
  · intro t x h
    rw [cleanPunctuation_data] at h
    simp only [cleanPunctuationL] at h
    exact cleanupTail_last _ x h

/-- C7 witness: the amended theorem applied at a run of three full-width
commas, at the output head of `"，hello"`, and at the output tail of
`"hello，"`. -/
theorem cleanPunctuation_amended_witness :
    cleanPunctuation ⟨'a' :: (List.replicate 3 '，' ++ ['b'])⟩ =
        ⟨['a', '，', 'b']⟩ ∧
      isLeadPunct 'h' = false ∧ isTrailComma 'o' = false :=
  ⟨cleanPunctuation_amended.1 3 (by decide) '，' (by decide),
   cleanPunctuation_amended.2.1 "，hello" 'h' "ello".data (by decide),
   cleanPunctuation_amended.2.2 "hello，" 'o' (by decide)⟩

end OleVoice
